import Mathlib

/-!
Verification of the portfolyo core: the kind/shape algebra of portfolio
lines, its resampling rules and the portfolio-state composition.

The repository's documentation (`docs/core/pfline.rst`, `docs/core/pfstate.rst`,
`docs/specialized_topics/resampling.rst`, the tutorial notebooks) describes a
typed algebra over dimensioned timeseries.  The Python implementation of the
core (`portfolyo/core/...`) is not part of the source tree available here, so
the definitions below are modelled from the specification and from the
documentation files that are present, as noted on each definition.

Numeric values are rationals (`Rat`); a timeseries is a list of
(timestamp, value) pairs, the timestamp standing for the left-bound
period-start instant of a gapless regular index.
-/

/-- Modelled from the spec: a pandas-like timeseries — a list of
(period-start timestamp, value) pairs over a regular, left-bound index. -/
abbrev Series := List (Int × Rat)

/-- The timestamps (index) of a series. -/
def sStamps (a : Series) : List Int := a.map Prod.fst

/-- Pointwise combination of two series sharing one index; the timestamps are
taken from the first operand (callers check index equality beforehand). -/
def sMap2 (f : Rat → Rat → Rat) (a b : Series) : Series :=
  List.zipWith (fun u v => (u.1, f u.2 v.2)) a b

/-- Pointwise sum of two series. -/
def sAdd : Series → Series → Series := sMap2 (· + ·)

/-- Pointwise difference of two series. -/
def sSub : Series → Series → Series := sMap2 (· - ·)

/-- Pointwise product of two series. -/
def sMul : Series → Series → Series := sMap2 (· * ·)

/-- Pointwise quotient of two series. -/
def sDiv : Series → Series → Series := sMap2 (· / ·)

/-- Scale every value of a series by a dimensionless factor. -/
def sScale (f : Rat) (a : Series) : Series := a.map (fun u => (u.1, f * u.2))

/-- Negate every value of a series. -/
def sNeg (a : Series) : Series := sScale (-1) a

/-- A constant series (a scalar broadcast over an index). -/
def broadcast (x : Rat) (s : List Int) : Series := s.map (fun t => (t, x))

/-- Modelled from the spec §3: the closed set of kinds a portfolio line can
have (`Kind` in `portfolyo`). -/
inductive Kind where
  | VOLUME
  | PRICE
  | REVENUE
  | COMPLETE
deriving DecidableEq, Repr

/-- Modelled from the spec §7: the error taxonomy raised by the core.
`DimensionalityError` and `KeyError` are the two extra errors named in
`docs/specialized_topics/dimensions` ("Compatilibity of abbrevation and
unit") for a unit incompatible with its dict key, and an unknown dict key. -/
inductive PfError where
  | InsufficientDataError
  | ConsistencyError
  | AmbiguousDimensionError
  | ShapeError
  | InvariantError
  | IndexError
  | DimensionalityError
  | KeyError
deriving DecidableEq, Repr

/-- Modelled from the spec §3: the series bundle owned by a flat portfolio
line: an energy series for VOLUME, a price series for PRICE, a revenue series
for REVENUE; a COMPLETE line carries volume, price and revenue, any two
determining the third (r = p·q). -/
inductive FlatData where
  | volume (q : Series)
  | price (p : Series)
  | revenue (r : Series)
  | complete (q p r : Series)
deriving DecidableEq, Repr

/-- The kind of a flat series bundle. -/
def FlatData.kindOf : FlatData → Kind
  | .volume _ => .VOLUME
  | .price _ => .PRICE
  | .revenue _ => .REVENUE
  | .complete _ _ _ => .COMPLETE

/-- The energy series of a flat bundle (empty for kinds without volume). -/
def FlatData.qOf : FlatData → Series
  | .volume q => q
  | .complete q _ _ => q
  | _ => []

/-- The price series of a flat bundle (empty for kinds without price). -/
def FlatData.pOf : FlatData → Series
  | .price p => p
  | .complete _ p _ => p
  | _ => []

/-- The revenue series of a flat bundle (empty for kinds without revenue). -/
def FlatData.rOf : FlatData → Series
  | .revenue r => r
  | .complete _ _ r => r
  | _ => []

/-- The shared index of a flat bundle; `none` if its series disagree. -/
def FlatData.stamps? : FlatData → Option (List Int)
  | .volume q => some (sStamps q)
  | .price p => some (sStamps p)
  | .revenue r => some (sStamps r)
  | .complete q p r =>
    if sStamps p = sStamps q ∧ sStamps r = sStamps q then some (sStamps q) else none

/-- Modelled from the spec §4.3 rule 4 (`docs/core/pfline.rst`, "Scaling"):
scaling by a dimensionless factor; for a COMPLETE bundle the volume and
revenue are scaled while the price remains unchanged. -/
def FlatData.scale (f : Rat) : FlatData → FlatData
  | .volume q => .volume (sScale f q)
  | .price p => .price (sScale f p)
  | .revenue r => .revenue (sScale f r)
  | .complete q p r => .complete (sScale f q) p (sScale f r)

/-- Modelled from the spec §4.3 rule 3 and §4.2: pointwise combination of two
same-kind flat bundles.  For COMPLETE, volume and revenue combine and the
price is recomputed as revenue/volume (never an average of the operand
prices).  The mismatched-kind arms are unreachable — every caller dispatches
on kind first — and return the first operand to keep the function total. -/
def FlatData.combine (op : Rat → Rat → Rat) : FlatData → FlatData → FlatData
  | .volume q1, .volume q2 => .volume (sMap2 op q1 q2)
  | .price p1, .price p2 => .price (sMap2 op p1 p2)
  | .revenue r1, .revenue r2 => .revenue (sMap2 op r1 r2)
  | .complete q1 _ r1, .complete q2 _ r2 =>
    .complete (sMap2 op q1 q2) (sDiv (sMap2 op r1 r2) (sMap2 op q1 q2)) (sMap2 op r1 r2)
  | d1, _ => d1

mutual
/-- Modelled from the spec §3: a portfolio line is flat (one series bundle)
or nested (an ordered mapping of named children). -/
inductive PfLine where
  | flat (d : FlatData)
  | nested (c : Children)
deriving DecidableEq, Repr
/-- A nonempty ordered list of (name, child line) pairs — the spec's
invariant that a nested line has at least one child is built in. -/
inductive Children where
  | last (name : String) (l : PfLine)
  | cons (name : String) (l : PfLine) (rest : Children)
deriving DecidableEq, Repr
end

mutual
/-- The kind of a portfolio line; `none` when the children disagree. -/
def PfLine.kind? : PfLine → Option Kind
  | .flat d => some d.kindOf
  | .nested c => c.kind?
/-- The common kind of all children; `none` when they disagree. -/
def Children.kind? : Children → Option Kind
  | .last _ l => l.kind?
  | .cons _ l rest =>
    match l.kind?, rest.kind? with
    | some k1, some k2 => if k1 = k2 then some k1 else none
    | _, _ => none
end

mutual
/-- The shared index of a portfolio line; `none` when its parts disagree. -/
def PfLine.stamps? : PfLine → Option (List Int)
  | .flat d => d.stamps?
  | .nested c => c.stamps?
/-- The common index of all children; `none` when they disagree. -/
def Children.stamps? : Children → Option (List Int)
  | .last _ l => l.stamps?
  | .cons _ l rest =>
    match l.stamps?, rest.stamps? with
    | some s1, some s2 => if s1 = s2 then some s1 else none
    | _, _ => none
end

mutual
/-- Modelled from the spec §4.2 and `docs/core/pfline.rst:140` ("the
sum/aggregate"): the computed aggregate bundle of a line.  VOLUME, PRICE and
REVENUE children sum pointwise; COMPLETE children sum volume and revenue and
derive price = revenue/volume. -/
def PfLine.aggData : PfLine → FlatData
  | .flat d => d
  | .nested c => c.aggData
/-- Aggregate of a child list (left fold of same-kind combination). -/
def Children.aggData : Children → FlatData
  | .last _ l => l.aggData
  | .cons _ l rest => FlatData.combine (· + ·) l.aggData rest.aggData
end

/-- Modelled from the spec §4.2: `.flatten()` returns a flat line holding the
computed aggregate. -/
def PfLine.flatten (l : PfLine) : PfLine := .flat l.aggData

/-- Whether the line is nested. -/
def PfLine.isNested : PfLine → Bool
  | .flat _ => false
  | .nested _ => true

mutual
/-- Modelled from the spec §4.3 rule 4: scaling a line by a dimensionless
factor preserves kind and nesting and applies to every child. -/
def PfLine.scale (f : Rat) : PfLine → PfLine
  | .flat d => .flat (d.scale f)
  | .nested c => .nested (c.scale f)
/-- Scale every child. -/
def Children.scale (f : Rat) : Children → Children
  | .last n l => .last n (l.scale f)
  | .cons n l rest => .cons n (l.scale f) (rest.scale f)
end

/-- Modelled from the spec §4.3 rule 4: unary negation is multiplication
with −1. -/
def PfLine.neg (l : PfLine) : PfLine := l.scale (-1)

/-- Modelled from the spec §4.3 rule 4: division by a dimensionless factor. -/
def PfLine.divByFactor (f : Rat) (l : PfLine) : PfLine := l.scale f⁻¹

/-- The names of the children, in order. -/
def Children.names : Children → List String
  | .last n _ => [n]
  | .cons n _ rest => n :: rest.names

/-- The (name, child) pairs, in order. -/
def Children.toList : Children → List (String × PfLine)
  | .last n l => [(n, l)]
  | .cons n l rest => (n, l) :: rest.toList

/-- Get a child by name (first match). -/
def Children.lookup (nm : String) : Children → Option PfLine
  | .last n l => if nm = n then some l else none
  | .cons n l rest => if nm = n then some l else rest.lookup nm

/-- Build a child list from a head pair and a tail list. -/
def Children.fromHead (nm : String) (l : PfLine) : List (String × PfLine) → Children
  | [] => .last nm l
  | (m, x) :: more => .cons nm l (Children.fromHead m x more)

/-- Append extra (name, child) pairs at the end of a child list. -/
def Children.appendList : Children → List (String × PfLine) → Children
  | .last n l, xs => Children.fromHead n l xs
  | .cons n l rest, xs => .cons n l (rest.appendList xs)

/-- Result of a binary arithmetic operation: either a typed error, or the
resulting line together with a flag recording whether the lossy
`PfLineFlattenedWarning` diagnostic was issued (tutorial part 2,
`enable_arithmatic.py`). -/
abbrev ArithRes := Except PfError (PfLine × Bool)

/-- The pointwise operation for addition (`sub = false`) or subtraction. -/
def opOf (sub : Bool) : Rat → Rat → Rat := if sub then (· - ·) else (· + ·)

/-- Modelled from the spec §4.3 rule 3: the children of the second operand
that have no name-mate in the first pass through unchanged for addition, and
negated for subtraction (the missing side acting as the zero of the kind). -/
def leftovers (sub : Bool) (anames : List String) (b : Children) : List (String × PfLine) :=
  let raw := b.toList.filter (fun e => !(anames.contains e.1))
  if sub then raw.map (fun e => (e.1, e.2.neg)) else raw

mutual
/-- Modelled from the spec §4.3 rule 3 (`docs/core/pfline.rst`, "Addition and
subtraction"): addition/subtraction is defined only between operands of
identical kind over one index.  Flat+flat gives flat; nested+nested merges
children by name union; flat+nested silently flattens the nested operand,
producing a flat result and raising the `PfLineFlattenedWarning` flag. -/
def PfLine.addSub (sub : Bool) (l1 l2 : PfLine) : ArithRes :=
  if l1.kind? = none ∨ l2.kind? = none ∨ l1.kind? ≠ l2.kind? then .error .ShapeError
  else if l1.stamps? = none ∨ l2.stamps? = none ∨ l1.stamps? ≠ l2.stamps? then
    .error .IndexError
  else
    match l1, l2 with
    | .flat d1, .flat d2 => .ok (.flat (d1.combine (opOf sub) d2), false)
    | .flat d1, .nested c2 => .ok (.flat (d1.combine (opOf sub) c2.aggData), true)
    | .nested c1, .flat d2 => .ok (.flat (c1.aggData.combine (opOf sub) d2), true)
    | .nested c1, .nested c2 =>
      match Children.merge sub c1 c2 with
      | .error e => .error e
      | .ok (m, w) => .ok (.nested (m.appendList (leftovers sub c1.names c2)), w)
/-- Modelled from the spec §4.3 rule 3: process the first operand's children
in order; a child whose name also occurs in the second operand is combined
recursively with its name-mate by the same rule, one present only in the
first operand passes through unchanged. -/
def Children.merge (sub : Bool) : Children → Children → Except PfError (Children × Bool)
  | .last n l, b =>
    match b.lookup n with
    | none => .ok (.last n l, false)
    | some c' =>
      match l.addSub sub c' with
      | .error e => .error e
      | .ok (r, w) => .ok (.last n r, w)
  | .cons n l rest, b =>
    match b.lookup n with
    | none =>
      match Children.merge sub rest b with
      | .error e => .error e
      | .ok (m, w) => .ok (.cons n l m, w)
    | some c' =>
      match l.addSub sub c' with
      | .error e => .error e
      | .ok (r, w1) =>
        match Children.merge sub rest b with
        | .error e => .error e
        | .ok (m, w2) => .ok (.cons n r m, w1 || w2)
end

/-- Modelled from the spec §4.3 rule 2 and `docs/specialized_topics/dimensions`
("Compatilibity of abbrevation and unit"): a bare unit-less number added to or
subtracted from a PRICE or REVENUE line is interpreted in the canonical unit
of that kind and broadcast over the line's index; for a VOLUME or COMPLETE
line it is rejected as ambiguous. -/
def PfLine.addSubNum (sub : Bool) (l : PfLine) (x : Rat) : ArithRes :=
  match l.kind?, l.stamps? with
  | some .PRICE, some s => l.addSub sub (.flat (.price (broadcast x s)))
  | some .REVENUE, some s => l.addSub sub (.flat (.revenue (broadcast x s)))
  | some .VOLUME, _ => .error .AmbiguousDimensionError
  | some .COMPLETE, _ => .error .AmbiguousDimensionError
  | some _, none => .error .IndexError
  | none, _ => .error .ShapeError

/-- Modelled from the spec §4.3 rule 2/4: a bare unit-less number multiplied
with a line of any kind is a dimensionless scaling factor. -/
def PfLine.mulNum (l : PfLine) (x : Rat) : ArithRes := .ok (l.scale x, false)

/-- Modelled from the spec §4.3 rule 6: kind-changing multiplication of two
flat bundles — VOLUME × PRICE (either order) gives REVENUE with r = q·p;
every other pair is outside the operator's domain. -/
def FlatData.mulFlat : FlatData → FlatData → Except PfError FlatData
  | .volume q, .price p =>
    if sStamps q = sStamps p then .ok (.revenue (sMul q p)) else .error .IndexError
  | .price p, .volume q =>
    if sStamps q = sStamps p then .ok (.revenue (sMul q p)) else .error .IndexError
  | _, _ => .error .ShapeError

mutual
/-- Modelled from the spec §4.3 rule 6 (`docs/core/pfline.rst`, "Changing
kind"): multiplication between two lines of distinct non-COMPLETE kind; at
most one operand may be nested, the flat operand combining with every child
of the nested one; two nested operands fail with `ShapeError`. -/
def PfLine.mulLine : PfLine → PfLine → Except PfError PfLine
  | .flat d1, .flat d2 =>
    match d1.mulFlat d2 with
    | .error e => .error e
    | .ok d => .ok (.flat d)
  | .flat d1, .nested c2 =>
    match Children.mulFlatL d1 c2 with
    | .error e => .error e
    | .ok m => .ok (.nested m)
  | .nested c1, .flat d2 =>
    match Children.mulFlatR c1 d2 with
    | .error e => .error e
    | .ok m => .ok (.nested m)
  | .nested _, .nested _ => .error .ShapeError
termination_by l1 l2 => sizeOf l1 + sizeOf l2
/-- Combine a flat bundle (left operand) with every child. -/
def Children.mulFlatL (d : FlatData) : Children → Except PfError Children
  | .last n l =>
    match PfLine.mulLine (.flat d) l with
    | .error e => .error e
    | .ok r => .ok (.last n r)
  | .cons n l rest =>
    match PfLine.mulLine (.flat d) l with
    | .error e => .error e
    | .ok r =>
      match Children.mulFlatL d rest with
      | .error e => .error e
      | .ok m => .ok (.cons n r m)
termination_by c => sizeOf d + sizeOf c + 1
/-- Combine every child with a flat bundle (right operand). -/
def Children.mulFlatR : Children → FlatData → Except PfError Children
  | .last n l, d =>
    match PfLine.mulLine l (.flat d) with
    | .error e => .error e
    | .ok r => .ok (.last n r)
  | .cons n l rest, d =>
    match PfLine.mulLine l (.flat d) with
    | .error e => .error e
    | .ok r =>
      match Children.mulFlatR rest d with
      | .error e => .error e
      | .ok m => .ok (.cons n r m)
termination_by c d => sizeOf c + sizeOf d + 1
end

/-- Modelled from the spec §4.3 rule 7 (`docs/core/pfline.rst`, "Union into
complete portfolio line"): union of two flat bundles of distinct
non-COMPLETE kind builds a COMPLETE bundle, deriving the third quantity. -/
def FlatData.union : FlatData → FlatData → Except PfError FlatData
  | .volume q, .price p =>
    if sStamps q = sStamps p then .ok (.complete q p (sMul q p)) else .error .IndexError
  | .price p, .volume q =>
    if sStamps q = sStamps p then .ok (.complete q p (sMul q p)) else .error .IndexError
  | .volume q, .revenue r =>
    if sStamps q = sStamps r then .ok (.complete q (sDiv r q) r) else .error .IndexError
  | .revenue r, .volume q =>
    if sStamps q = sStamps r then .ok (.complete q (sDiv r q) r) else .error .IndexError
  | .price p, .revenue r =>
    if sStamps p = sStamps r then .ok (.complete (sDiv r p) p r) else .error .IndexError
  | .revenue r, .price p =>
    if sStamps p = sStamps r then .ok (.complete (sDiv r p) p r) else .error .IndexError
  | _, _ => .error .ShapeError

/-- Modelled from the spec §4.3 rule 7: the union operator `|`; both operands
must be flat. -/
def PfLine.union : PfLine → PfLine → Except PfError PfLine
  | .flat d1, .flat d2 =>
    match d1.union d2 with
    | .error e => .error e
    | .ok d => .ok (.flat d)
  | _, _ => .error .ShapeError

/-- Modelled from `docs/core/pfline.rst` ("Volume-only, price-only or
revenue-only"): the `.volume` accessor.  On a VOLUME line it is the line
itself; on a COMPLETE line it extracts the volume part (flattening first when
nested, since child bookkeeping is handled upstream); other kinds have no
volume. -/
def PfLine.volumePart (l : PfLine) : Except PfError PfLine :=
  match l.kind? with
  | some .VOLUME => .ok l
  | some .COMPLETE => .ok (.flat (.volume l.aggData.qOf))
  | _ => .error .ShapeError

/-- The `.price` accessor; for a nested COMPLETE line the result is flat,
computed from the aggregate (revenue-weighted), never a sum of child prices. -/
def PfLine.pricePart (l : PfLine) : Except PfError PfLine :=
  match l.kind? with
  | some .PRICE => .ok l
  | some .COMPLETE => .ok (.flat (.price l.aggData.pOf))
  | _ => .error .ShapeError

/-- The `.revenue` accessor. -/
def PfLine.revenuePart (l : PfLine) : Except PfError PfLine :=
  match l.kind? with
  | some .REVENUE => .ok l
  | some .COMPLETE => .ok (.flat (.revenue l.aggData.rOf))
  | _ => .error .ShapeError

/-- Modelled from the spec §3 and `docs/specialized_topics/dimensions`: the
canonical dimensions; each has exactly one default unit (MW, MWh, Eur/MWh,
Eur, –), conversion to which happens at the boundary. -/
inductive Dim where
  | power
  | energy
  | price
  | revenue
  | nodim
deriving DecidableEq, Repr

/-- Modelled from the spec §4.1: a pandas Series as the constructor receives
it — an optional `name`, an optional pint unit (already reduced to its
dimension, the values already converted to the default unit at the
boundary), and the data. -/
structure RawSeries where
  name : Option String
  unit : Option Dim
  data : Series
deriving DecidableEq, Repr

/-- Modelled from the spec §4.1: the construction inputs relevant here — a
single series, or a mapping from dimension abbreviation (`"w"`, `"q"`,
`"p"`, `"r"`, `"nodim"`) to series.  (Mappings from child names to lines
construct nested lines; that path is exercised directly through
`PfLine.nested` above.) -/
inductive PfInput where
  | single (s : RawSeries)
  | dimdict (entries : List (String × RawSeries))
deriving DecidableEq, Repr

/-- The dimension a dict key stands for; `none` for an unknown key. -/
def keyDim : String → Option Dim
  | "w" => some .power
  | "q" => some .energy
  | "p" => some .price
  | "r" => some .revenue
  | "nodim" => some .nodim
  | _ => none

/-- Whether a volume-class dimension. -/
def Dim.isVolume : Dim → Bool
  | .power => true
  | .energy => true
  | _ => false

/-- Modelled from `docs/specialized_topics/dimensions` ("Compatilibity of
abbrevation and unit"): resolve one dict entry.  An unknown key raises
`KeyError`; a unit incompatible with the key raises a dimensionality error;
a key without unit assumes the default unit of the key's dimension. -/
def resolveEntry (key : String) (s : RawSeries) : Except PfError (Dim × Series) :=
  match keyDim key with
  | none => .error .KeyError
  | some d =>
    match s.unit with
    | none => .ok (d, s.data)
    | some u =>
      if u = d ∨ (u.isVolume ∧ d.isVolume) then .ok (d, s.data)
      else .error .DimensionalityError

/-- Resolve all entries of a dimension-tagged mapping, in order. -/
def resolveEntries : List (String × RawSeries) → Except PfError (List (Dim × Series))
  | [] => .ok []
  | (k, s) :: rest =>
    match resolveEntry k s with
    | .error e => .error e
    | .ok ds =>
      match resolveEntries rest with
      | .error e => .error e
      | .ok more => .ok (ds :: more)

/-- First series carrying the given dimension, if any. -/
def findDim (d : Dim) (xs : List (Dim × Series)) : Option Series :=
  (xs.find? (fun e => e.1 = d)).map Prod.snd

/-- Modelled from the spec §4.1: determine the kind from the resolved
dimensions and build the flat bundle.  Exactly a volume → VOLUME; exactly a
price → PRICE; exactly a revenue → REVENUE; two of the three → COMPLETE with
the third derived (r = p·q); all three → COMPLETE after an exact consistency
check (`ConsistencyError` beyond tolerance); fewer than the minimum →
`InsufficientDataError`.  The power abbreviation `w` stands for the volume
dimension; its conversion to energy (multiplication by period duration)
happens at the boundary per §3, so a `w` entry arrives as an energy series. -/
def buildFlat (xs : List (Dim × Series)) : Except PfError FlatData :=
  let vol := match findDim .energy xs with
    | some q => some q
    | none => findDim .power xs
  match vol, findDim .price xs, findDim .revenue xs with
  | some q, none, none => .ok (.volume q)
  | none, some p, none => .ok (.price p)
  | none, none, some r => .ok (.revenue r)
  | some q, some p, none => .ok (.complete q p (sMul q p))
  | some q, none, some r => .ok (.complete q (sDiv r q) r)
  | none, some p, some r => .ok (.complete (sDiv r p) p r)
  | some q, some p, some r =>
    if r = sMul q p then .ok (.complete q p r) else .error .ConsistencyError
  | none, none, none => .error .InsufficientDataError

/-- Modelled from the spec §4.1 and `docs/core/pfline.rst`
("Initialisation"): PfLine construction.  A single series infers its
dimension from its unit (power/energy → VOLUME, price → PRICE, revenue →
REVENUE); an untagged or dimensionless single series has no resolvable
dimension and no operation context, so it is rejected as ambiguous.  For a
dimension-tagged mapping the keys determine the kind; the `name` attribute
of a series is never consulted. -/
def PfLine.construct : PfInput → Except PfError PfLine
  | .single s =>
    match s.unit with
    | some .power => .ok (.flat (.volume s.data))
    | some .energy => .ok (.flat (.volume s.data))
    | some .price => .ok (.flat (.price s.data))
    | some .revenue => .ok (.flat (.revenue s.data))
    | some .nodim => .error .AmbiguousDimensionError
    | none => .error .AmbiguousDimensionError
  | .dimdict entries =>
    match resolveEntries entries with
    | .error e => .error e
    | .ok xs =>
      match buildFlat xs with
      | .error e => .error e
      | .ok d => .ok (.flat d)

/-- Erase the `name` attribute of every series of a construction input. -/
def PfInput.stripNames : PfInput → PfInput
  | .single s => .single { s with name := none }
  | .dimdict entries => .dimdict (entries.map (fun e => (e.1, { e.2 with name := none })))

/-- Modelled from the spec §3/§4.5 and `docs/core/pfstate.rst`: a portfolio
state holds an offtake volume line, an unsourced-price line and a sourced
line over one shared index. -/
structure PfState where
  offtakevolume : PfLine
  unsourcedprice : PfLine
  sourced : PfLine
deriving DecidableEq, Repr

/-- Modelled from the spec §4.5: validated construction — the three lines
must have kinds VOLUME, PRICE, COMPLETE and share one index. -/
def PfState.make (off pri src : PfLine) : Except PfError PfState :=
  if off.kind? = some .VOLUME ∧ pri.kind? = some .PRICE ∧ src.kind? = some .COMPLETE then
    match off.stamps?, pri.stamps?, src.stamps? with
    | some s1, some s2, some s3 =>
      if s1 = s2 ∧ s1 = s3 then .ok ⟨off, pri, src⟩ else .error .IndexError
    | _, _, _ => .error .IndexError
  else .error .ShapeError

/-- Modelled from the spec §4.5: the derived unsourced line — volume
`−(offtake.volume + sourced.volume)`, priced at the unsourced price, with
revenue `price × volume`. -/
def PfState.unsourced (st : PfState) : PfLine :=
  let qU := sNeg (sAdd st.offtakevolume.aggData.qOf st.sourced.aggData.qOf)
  let pU := st.unsourcedprice.aggData.pOf
  .flat (.complete qU pU (sMul qU pU))

/-- Modelled from the spec §4.5 and `docs/core/pfstate.rst` ("Accessing
data"): `pnl_cost` — a nested COMPLETE line with the children `sourced` and
`unsourced`, in that fixed order. -/
def PfState.pnlCost (st : PfState) : PfLine :=
  .nested (.cons "sourced" st.sourced (.last "unsourced" st.unsourced))

/-- Filter a series by a predicate on its timestamps. -/
def sFilterT (pred : Int → Bool) (a : Series) : Series :=
  a.filter (fun u => pred u.1)

/-- Filter every series of a flat bundle by a timestamp predicate. -/
def FlatData.filterT (pred : Int → Bool) : FlatData → FlatData
  | .volume q => .volume (sFilterT pred q)
  | .price p => .price (sFilterT pred p)
  | .revenue r => .revenue (sFilterT pred r)
  | .complete q p r => .complete (sFilterT pred q) (sFilterT pred p) (sFilterT pred r)

mutual
/-- Restrict a line to the timestamps satisfying a predicate (the row
selection under `.slice[]`/`.loc[]`). -/
def PfLine.filterT (pred : Int → Bool) : PfLine → PfLine
  | .flat d => .flat (d.filterT pred)
  | .nested c => .nested (c.filterT pred)
/-- Restrict every child. -/
def Children.filterT (pred : Int → Bool) : Children → Children
  | .last n l => .last n (l.filterT pred)
  | .cons n l rest => .cons n (l.filterT pred) (rest.filterT pred)
end

/-- Modelled from `docs/core/pfline.rst` ("Index slice"): `pfl.slice[:a]` —
the end point is excluded. -/
def PfLine.sliceUpto (a : Int) (l : PfLine) : PfLine :=
  l.filterT (fun t => decide (t < a))

/-- Modelled from `docs/core/pfline.rst` ("Index slice"): `pfl.slice[a:]`. -/
def PfLine.sliceFrom (a : Int) (l : PfLine) : PfLine :=
  l.filterT (fun t => decide (a ≤ t))

/-- Modelled from `docs/core/pfline.rst` ("Index slice"): `pfl.loc[:a]` —
pandas convention, the end point is included. -/
def PfLine.locUpto (a : Int) (l : PfLine) : PfLine :=
  l.filterT (fun t => decide (t ≤ a))

/-- Weighted average of values with the given weights. -/
def wavg (weights vals : List Rat) : Rat :=
  (List.zipWith (· * ·) weights vals).sum / weights.sum

/-- Modelled from the spec §4.4 and
`docs/specialized_topics/resampling.rst` ("Downsampling example"):
downsampling a price series that has an associated volume computes the
energy-weighted average of the contained prices. -/
def downsamplePriceWithVolume (energies prices : List Rat) : Rat :=
  wavg energies prices

/-- Modelled from the spec §4.4 and
`docs/specialized_topics/resampling.rst` ("Downsampling example,
price-only"): a price series without volume information is treated as
time-averagable — the duration-weighted average of the contained prices. -/
def downsamplePriceNoVolume (durations prices : List Rat) : Rat :=
  wavg durations prices

/-- The quarterly price fixture of
`docs/specialized_topics/resampling.rst`: [37.77, 25.30, 21.30, 30.80]
Eur/MWh. -/
def fixturePrices : List Rat := [3777/100, 2530/100, 2130/100, 3080/100]

/-- The associated quarterly energies of the fixture: [300, 180, 200, 320]
MWh. -/
def fixtureEnergies : List Rat := [300, 180, 200, 320]

/-- The quarter durations in hours of the fixture year (2024,
Europe/Berlin as in the document: 91 days less the spring DST hour, 91
days, 92 days, 92 days plus the autumn DST hour). -/
def fixtureDurations : List Rat := [2183, 2184, 2208, 2209]

/-- Lookup by name in a plain (name, line) list. -/
def listLookup (nm : String) : List (String × PfLine) → Option PfLine
  | [] => none
  | (n, l) :: rest => if nm = n then some l else listLookup nm rest

theorem sStamps_sMap2 (f : Rat → Rat → Rat) (a b : Series) (h : sStamps a = sStamps b) :
    sStamps (sMap2 f a b) = sStamps a := by
  induction a generalizing b with
  | nil => simp [sMap2, sStamps]
  | cons u as ih =>
    cases b with
    | nil => simp [sStamps] at h
    | cons v bs =>
      simp only [sStamps, List.map_cons, List.cons.injEq] at h
      simp only [sMap2, List.zipWith_cons_cons, sStamps, List.map_cons, List.cons.injEq]
      exact ⟨trivial, ih bs h.2⟩

theorem sStamps_sScale (f : Rat) (a : Series) : sStamps (sScale f a) = sStamps a := by
  simp [sStamps, sScale]

theorem sStamps_sNeg (a : Series) : sStamps (sNeg a) = sStamps a := by
  simp [sNeg, sStamps_sScale]

theorem sStamps_sFilterT (pred : Int → Bool) (a : Series) :
    sStamps (sFilterT pred a) = (sStamps a).filter pred := by
  induction a with
  | nil => simp [sFilterT, sStamps]
  | cons u as ih =>
    simp only [sFilterT, sStamps, List.filter_cons, List.map_cons] at *
    cases hp : pred u.1 <;> simp [hp, ih]

theorem sStamps_broadcast (x : Rat) (s : List Int) : sStamps (broadcast x s) = s := by
  simp [sStamps, broadcast, Function.comp_def]

theorem sAdd_sNeg_cancel (a b : Series) (h : sStamps a = sStamps b) :
    sAdd b (sNeg (sAdd a b)) = sNeg a := by
  induction a generalizing b with
  | nil =>
    cases b with
    | nil => rfl
    | cons v bs => simp [sStamps] at h
  | cons u as ih =>
    cases b with
    | nil => simp [sStamps] at h
    | cons v bs =>
      simp only [sStamps, List.map_cons, List.cons.injEq] at h
      simp only [sAdd, sNeg, sScale, sMap2, List.zipWith_cons_cons, List.map_cons,
        List.cons.injEq]
      constructor
      · rw [Prod.ext_iff]
        exact ⟨h.1.symm, by ring⟩
      · have := ih bs h.2
        simpa only [sAdd, sNeg, sScale, sMap2] using this

theorem FlatData.kindOf_combine (op : Rat → Rat → Rat) (d1 d2 : FlatData) :
    (d1.combine op d2).kindOf = d1.kindOf := by
  cases d1 <;> cases d2 <;> rfl

theorem FlatData.kindOf_scale (f : Rat) (d : FlatData) : (d.scale f).kindOf = d.kindOf := by
  cases d <;> rfl

theorem FlatData.kindOf_filterT (pred : Int → Bool) (d : FlatData) :
    (d.filterT pred).kindOf = d.kindOf := by
  cases d <;> rfl

theorem FlatData.stamps?_combine (op : Rat → Rat → Rat) (d1 d2 : FlatData) (s : List Int)
    (h1 : d1.stamps? = some s) (h2 : d2.stamps? = some s) :
    (d1.combine op d2).stamps? = some s := by
  cases d1 <;> cases d2 <;>
    simp_all only [FlatData.stamps?, FlatData.combine, Option.some.injEq] <;>
    try assumption
  case volume.volume q1 q2 =>
    rw [sStamps_sMap2 op q1 q2 (by rw [h1, h2])]; exact h1
  case price.price p1 p2 =>
    rw [sStamps_sMap2 op p1 p2 (by rw [h1, h2])]; exact h1
  case revenue.revenue r1 r2 =>
    rw [sStamps_sMap2 op r1 r2 (by rw [h1, h2])]; exact h1
  case complete.complete q1 p1 r1 q2 p2 r2 =>
    split at h1
    case isFalse => exact absurd h1 (by simp)
    case isTrue hc1 =>
      split at h2
      case isFalse => exact absurd h2 (by simp)
      case isTrue hc2 =>
        simp only [Option.some.injEq] at h1 h2
        have hq : sStamps (sMap2 op q1 q2) = sStamps q1 :=
          sStamps_sMap2 op q1 q2 (by rw [h1, h2])
        have hr : sStamps (sMap2 op r1 r2) = sStamps q1 := by
          rw [sStamps_sMap2 op r1 r2 (by rw [hc1.2, h1, hc2.2, h2]), hc1.2]
        have hp : sStamps (sDiv (sMap2 op r1 r2) (sMap2 op q1 q2)) = sStamps q1 := by
          rw [sDiv, sStamps_sMap2 _ _ _ (by rw [hq, hr]), hr]
        simp [FlatData.stamps?, hq, hr, hp, h1]

theorem FlatData.stamps?_scale (f : Rat) (d : FlatData) : (d.scale f).stamps? = d.stamps? := by
  cases d <;> simp [FlatData.stamps?, FlatData.scale, sStamps_sScale]

theorem FlatData.stamps?_filterT (pred : Int → Bool) (d : FlatData) (s : List Int)
    (h : d.stamps? = some s) : (d.filterT pred).stamps? = some (s.filter pred) := by
  cases d <;> simp_all only [FlatData.stamps?, FlatData.filterT, Option.some.injEq] <;>
    try rw [sStamps_sFilterT, h]
  case complete q p r =>
    split at h
    case isFalse => exact absurd h (by simp)
    case isTrue hc =>
      simp only [Option.some.injEq] at h
      simp [sStamps_sFilterT, hc.1, hc.2, h]

theorem Children.kind?_cons_elim (n : String) (l : PfLine) (rest : Children) (k : Kind)
    (h : (Children.cons n l rest).kind? = some k) :
    l.kind? = some k ∧ rest.kind? = some k := by
  rw [Children.kind?] at h
  cases h1 : l.kind? <;> rw [h1] at h
  · exact absurd h (by simp)
  cases h2 : rest.kind? <;> rw [h2] at h
  · exact absurd h (by simp)
  simp only at h
  split at h
  · simp_all
  · exact absurd h (by simp)

theorem Children.stamps?_cons_elim (n : String) (l : PfLine) (rest : Children) (s : List Int)
    (h : (Children.cons n l rest).stamps? = some s) :
    l.stamps? = some s ∧ rest.stamps? = some s := by
  rw [Children.stamps?] at h
  cases h1 : l.stamps? <;> rw [h1] at h
  · exact absurd h (by simp)
  cases h2 : rest.stamps? <;> rw [h2] at h
  · exact absurd h (by simp)
  simp only at h
  split at h
  · simp_all
  · exact absurd h (by simp)

mutual
theorem PfLine.kindOf_aggData (l : PfLine) (k : Kind) (h : l.kind? = some k) :
    l.aggData.kindOf = k := by
  cases l with
  | flat d =>
    simp only [PfLine.kind?, Option.some.injEq] at h
    simpa [PfLine.aggData] using h
  | nested c =>
    rw [PfLine.kind?] at h
    rw [PfLine.aggData]
    exact Children.kindOf_aggKids c k h
theorem Children.kindOf_aggKids (c : Children) (k : Kind) (h : c.kind? = some k) :
    c.aggData.kindOf = k := by
  cases c with
  | last n l =>
    rw [Children.kind?] at h
    rw [Children.aggData]
    exact PfLine.kindOf_aggData l k h
  | cons n l rest =>
    obtain ⟨h1, h2⟩ := Children.kind?_cons_elim n l rest k h
    rw [Children.aggData, FlatData.kindOf_combine]
    exact PfLine.kindOf_aggData l k h1
end

mutual
theorem PfLine.stamps?_aggData (l : PfLine) (s : List Int) (h : l.stamps? = some s) :
    l.aggData.stamps? = some s := by
  cases l with
  | flat d =>
    rw [PfLine.stamps?] at h
    rw [PfLine.aggData]
    exact h
  | nested c =>
    rw [PfLine.stamps?] at h
    rw [PfLine.aggData]
    exact Children.stamps?_aggKids c s h
theorem Children.stamps?_aggKids (c : Children) (s : List Int) (h : c.stamps? = some s) :
    c.aggData.stamps? = some s := by
  cases c with
  | last n l =>
    rw [Children.stamps?] at h
    rw [Children.aggData]
    exact PfLine.stamps?_aggData l s h
  | cons n l rest =>
    obtain ⟨h1, h2⟩ := Children.stamps?_cons_elim n l rest s h
    rw [Children.aggData]
    exact FlatData.stamps?_combine _ _ _ s (PfLine.stamps?_aggData l s h1)
      (Children.stamps?_aggKids rest s h2)
end

mutual
theorem PfLine.kind?_scale (f : Rat) (l : PfLine) : (l.scale f).kind? = l.kind? := by
  cases l with
  | flat d => simp [PfLine.scale, PfLine.kind?, FlatData.kindOf_scale]
  | nested c =>
    rw [PfLine.scale, PfLine.kind?, PfLine.kind?]
    exact Children.kind?_scaleKids f c
theorem Children.kind?_scaleKids (f : Rat) (c : Children) : (c.scale f).kind? = c.kind? := by
  cases c with
  | last n l =>
    rw [Children.scale, Children.kind?, Children.kind?]
    exact PfLine.kind?_scale f l
  | cons n l rest =>
    rw [Children.scale, Children.kind?, Children.kind?,
      PfLine.kind?_scale f l, Children.kind?_scaleKids f rest]
end

mutual
theorem PfLine.stamps?_scaleLine (f : Rat) (l : PfLine) : (l.scale f).stamps? = l.stamps? := by
  cases l with
  | flat d =>
    rw [PfLine.scale, PfLine.stamps?, PfLine.stamps?]
    exact FlatData.stamps?_scale f d
  | nested c =>
    rw [PfLine.scale, PfLine.stamps?, PfLine.stamps?]
    exact Children.stamps?_scaleKids f c
theorem Children.stamps?_scaleKids (f : Rat) (c : Children) : (c.scale f).stamps? = c.stamps? := by
  cases c with
  | last n l =>
    rw [Children.scale, Children.stamps?, Children.stamps?]
    exact PfLine.stamps?_scaleLine f l
  | cons n l rest =>
    rw [Children.scale, Children.stamps?, Children.stamps?,
      PfLine.stamps?_scaleLine f l, Children.stamps?_scaleKids f rest]
end

mutual
theorem PfLine.stamps?_filterLine (pred : Int → Bool) (l : PfLine) (s : List Int)
    (h : l.stamps? = some s) : (l.filterT pred).stamps? = some (s.filter pred) := by
  cases l with
  | flat d =>
    rw [PfLine.stamps?] at h
    rw [PfLine.filterT, PfLine.stamps?]
    exact FlatData.stamps?_filterT pred d s h
  | nested c =>
    rw [PfLine.stamps?] at h
    rw [PfLine.filterT, PfLine.stamps?]
    exact Children.stamps?_filterKids pred c s h
theorem Children.stamps?_filterKids (pred : Int → Bool) (c : Children) (s : List Int)
    (h : c.stamps? = some s) : (c.filterT pred).stamps? = some (s.filter pred) := by
  cases c with
  | last n l =>
    rw [Children.stamps?] at h
    rw [Children.filterT, Children.stamps?]
    exact PfLine.stamps?_filterLine pred l s h
  | cons n l rest =>
    obtain ⟨h1, h2⟩ := Children.stamps?_cons_elim n l rest s h
    rw [Children.filterT, Children.stamps?,
      PfLine.stamps?_filterLine pred l s h1, Children.stamps?_filterKids pred rest s h2]
    simp
end

theorem Children.lookup_kind (c : Children) (k : Kind) (nm : String) (x : PfLine)
    (hk : c.kind? = some k) (hl : c.lookup nm = some x) : x.kind? = some k := by
  cases c with
  | last n l =>
    rw [Children.kind?] at hk
    rw [Children.lookup] at hl
    split at hl
    · cases hl; exact hk
    · exact absurd hl (by simp)
  | cons n l rest =>
    obtain ⟨h1, h2⟩ := Children.kind?_cons_elim n l rest k hk
    rw [Children.lookup] at hl
    split at hl
    · cases hl; exact h1
    · exact Children.lookup_kind rest k nm x h2 hl

theorem Children.lookup_stamps (c : Children) (s : List Int) (nm : String) (x : PfLine)
    (hs : c.stamps? = some s) (hl : c.lookup nm = some x) : x.stamps? = some s := by
  cases c with
  | last n l =>
    rw [Children.stamps?] at hs
    rw [Children.lookup] at hl
    split at hl
    · cases hl; exact hs
    · exact absurd hl (by simp)
  | cons n l rest =>
    obtain ⟨h1, h2⟩ := Children.stamps?_cons_elim n l rest s hs
    rw [Children.lookup] at hl
    split at hl
    · cases hl; exact h1
    · exact Children.lookup_stamps rest s nm x h2 hl

mutual
theorem PfLine.addSub_total (sub : Bool) (l1 l2 : PfLine) (k : Kind) (s : List Int)
    (hk1 : l1.kind? = some k) (hk2 : l2.kind? = some k)
    (hs1 : l1.stamps? = some s) (hs2 : l2.stamps? = some s) :
    ∃ r w, l1.addSub sub l2 = .ok (r, w) := by
  rw [PfLine.addSub.eq_def]
  rw [if_neg (by simp [hk1, hk2]), if_neg (by simp [hs1, hs2])]
  cases l1 with
  | flat d1 =>
    cases l2 with
    | flat d2 => exact ⟨_, _, rfl⟩
    | nested c2 => exact ⟨_, _, rfl⟩
  | nested c1 =>
    cases l2 with
    | flat d2 => exact ⟨_, _, rfl⟩
    | nested c2 =>
      rw [PfLine.kind?] at hk1 hk2
      rw [PfLine.stamps?] at hs1 hs2
      obtain ⟨m, w, hm⟩ := Children.merge_total sub c1 c2 k s hk1 hk2 hs1 hs2
      exact ⟨.nested (m.appendList (leftovers sub c1.names c2)), w, by simp [hm]⟩
theorem Children.merge_total (sub : Bool) (a b : Children) (k : Kind) (s : List Int)
    (hka : a.kind? = some k) (hkb : b.kind? = some k)
    (hsa : a.stamps? = some s) (hsb : b.stamps? = some s) :
    ∃ m w, Children.merge sub a b = .ok (m, w) := by
  cases a with
  | last n l =>
    rw [Children.kind?] at hka
    rw [Children.stamps?] at hsa
    cases hb : b.lookup n with
    | none => exact ⟨.last n l, false, by simp [Children.merge, hb]⟩
    | some c' =>
      obtain ⟨r, w, hr⟩ := PfLine.addSub_total sub l c' k s hka
        (Children.lookup_kind b k n c' hkb hb) hsa (Children.lookup_stamps b s n c' hsb hb)
      exact ⟨.last n r, w, by simp [Children.merge, hb, hr]⟩
  | cons n l rest =>
    obtain ⟨hk1, hk2⟩ := Children.kind?_cons_elim n l rest k hka
    obtain ⟨hs1, hs2⟩ := Children.stamps?_cons_elim n l rest s hsa
    cases hb : b.lookup n with
    | none =>
      obtain ⟨m, w, hm⟩ := Children.merge_total sub rest b k s hk2 hkb hs2 hsb
      exact ⟨.cons n l m, w, by simp [Children.merge, hb, hm]⟩
    | some c' =>
      obtain ⟨r, w1, hr⟩ := PfLine.addSub_total sub l c' k s hk1
        (Children.lookup_kind b k n c' hkb hb) hs1 (Children.lookup_stamps b s n c' hsb hb)
      obtain ⟨m, w2, hm⟩ := Children.merge_total sub rest b k s hk2 hkb hs2 hsb
      exact ⟨.cons n r m, w1 || w2, by simp [Children.merge, hb, hr, hm]⟩
end

theorem listLookup_filter_not_contains (nm : String) (anames : List String)
    (xs : List (String × PfLine)) (h : nm ∉ anames) :
    listLookup nm (xs.filter (fun e => !(anames.contains e.1))) = listLookup nm xs := by
  induction xs with
  | nil => rfl
  | cons e rest ih =>
    rw [List.filter_cons]
    simp only [List.elem_eq_mem] at ih
    by_cases hm : e.1 ∈ anames
    · have hne : ¬ nm = e.1 := fun hc => h (hc ▸ hm)
      simp [hm, listLookup, hne, ih]
    · simp [hm, listLookup, ih]

theorem listLookup_filter_contains (nm : String) (anames : List String)
    (xs : List (String × PfLine)) (h : nm ∈ anames) :
    listLookup nm (xs.filter (fun e => !(anames.contains e.1))) = none := by
  induction xs with
  | nil => rfl
  | cons e rest ih =>
    rw [List.filter_cons]
    simp only [List.elem_eq_mem] at ih
    by_cases hm : e.1 ∈ anames
    · simp [hm, ih]
    · have hne : ¬ nm = e.1 := fun hc => hm (hc ▸ h)
      simp [hm, listLookup, hne, ih]

theorem listLookup_toList (nm : String) (c : Children) :
    listLookup nm c.toList = c.lookup nm := by
  cases c with
  | last n l => simp [Children.toList, Children.lookup, listLookup]
  | cons n l rest =>
    simp [Children.toList, Children.lookup, listLookup, listLookup_toList nm rest]

theorem Children.lookup_fromHead (nm n : String) (l : PfLine)
    (xs : List (String × PfLine)) :
    (Children.fromHead n l xs).lookup nm
      = if nm = n then some l else listLookup nm xs := by
  induction xs generalizing n l with
  | nil => simp [Children.fromHead, Children.lookup, listLookup]
  | cons e rest ih =>
    cases e with
    | mk m x => simp [Children.fromHead, Children.lookup, listLookup, ih]

theorem Children.lookup_appendList (nm : String) (c : Children)
    (xs : List (String × PfLine)) :
    (c.appendList xs).lookup nm = (c.lookup nm).elim (listLookup nm xs) some := by
  cases c with
  | last n l =>
    rw [Children.appendList, Children.lookup_fromHead]
    by_cases he : nm = n <;> simp [Children.lookup, he]
  | cons n l rest =>
    by_cases he : nm = n <;>
      simp [Children.appendList, Children.lookup, he, Children.lookup_appendList nm rest xs]

theorem Children.lookup_none_iff (c : Children) (nm : String) :
    c.lookup nm = none ↔ nm ∉ c.names := by
  cases c with
  | last n l =>
    by_cases he : nm = n <;> simp [Children.lookup, Children.names, he]
  | cons n l rest =>
    by_cases he : nm = n <;>
      simp [Children.lookup, Children.names, he, Children.lookup_none_iff rest nm]

theorem Children.merge_lookup (sub : Bool) (a b : Children) (m : Children) (w : Bool)
    (h : Children.merge sub a b = .ok (m, w)) (nm : String) :
    (a.lookup nm = none → m.lookup nm = none)
    ∧ (∀ ca, a.lookup nm = some ca →
        (b.lookup nm = none → m.lookup nm = some ca)
        ∧ (∀ cb, b.lookup nm = some cb →
            ∃ r w', ca.addSub sub cb = .ok (r, w') ∧ m.lookup nm = some r)) := by
  cases a with
  | last n l =>
    rw [Children.merge] at h
    cases hb : b.lookup n with
    | none =>
      simp only [hb] at h
      obtain ⟨hm, hw⟩ : Children.last n l = m ∧ false = w := by simpa using h
      subst hm
      by_cases he : nm = n
      · subst he
        refine ⟨fun h0 => absurd h0 (by simp [Children.lookup]), fun ca hca => ?_⟩
        rw [Children.lookup, if_pos rfl] at hca
        cases hca
        exact ⟨fun _ => by rw [Children.lookup, if_pos rfl],
          fun cb hcb => absurd (hb ▸ hcb) (by simp)⟩
      · refine ⟨fun _ => by rw [Children.lookup, if_neg he], fun ca hca => ?_⟩
        rw [Children.lookup, if_neg he] at hca
        exact absurd hca (by simp)
    | some c' =>
      simp only [hb] at h
      cases hr : l.addSub sub c' with
      | error e => rw [hr] at h; exact absurd h (by simp)
      | ok rw1 =>
        obtain ⟨r, w1⟩ := rw1
        rw [hr] at h
        obtain ⟨hm, hw⟩ : Children.last n r = m ∧ w1 = w := by simpa using h
        subst hm
        by_cases he : nm = n
        · subst he
          refine ⟨fun h0 => absurd h0 (by simp [Children.lookup]), fun ca hca => ?_⟩
          rw [Children.lookup, if_pos rfl] at hca
          cases hca
          refine ⟨fun h0 => absurd (hb ▸ h0) (by simp), fun cb hcb => ?_⟩
          rw [hb] at hcb
          cases hcb
          exact ⟨r, w1, hr, by rw [Children.lookup, if_pos rfl]⟩
        · refine ⟨fun _ => by rw [Children.lookup, if_neg he], fun ca hca => ?_⟩
          rw [Children.lookup, if_neg he] at hca
          exact absurd hca (by simp)
  | cons n l rest =>
    rw [Children.merge] at h
    cases hb : b.lookup n with
    | none =>
      simp only [hb] at h
      cases hrest : Children.merge sub rest b with
      | error e => rw [hrest] at h; exact absurd h (by simp)
      | ok mw =>
        obtain ⟨m', w'⟩ := mw
        rw [hrest] at h
        obtain ⟨hm, hw⟩ : Children.cons n l m' = m ∧ w' = w := by simpa using h
        subst hm
        by_cases he : nm = n
        · subst he
          refine ⟨fun h0 => absurd h0 (by simp [Children.lookup]), fun ca hca => ?_⟩
          rw [Children.lookup, if_pos rfl] at hca
          cases hca
          exact ⟨fun _ => by rw [Children.lookup, if_pos rfl],
            fun cb hcb => absurd (hb ▸ hcb) (by simp)⟩
        · have ihm := Children.merge_lookup sub rest b m' w' hrest nm
          refine ⟨fun h0 => ?_, fun ca hca => ?_⟩
          · rw [Children.lookup, if_neg he] at h0 ⊢
            exact ihm.1 h0
          · rw [Children.lookup, if_neg he] at hca ⊢
            obtain ⟨hc1, hc2⟩ := ihm.2 ca hca
            exact ⟨fun h0 => hc1 h0, fun cb hcb => hc2 cb hcb⟩
    | some c' =>
      simp only [hb] at h
      cases hr : l.addSub sub c' with
      | error e => rw [hr] at h; exact absurd h (by simp)
      | ok rw1 =>
        obtain ⟨r, w1⟩ := rw1
        rw [hr] at h
        cases hrest : Children.merge sub rest b with
        | error e => rw [hrest] at h; exact absurd h (by simp)
        | ok mw =>
          obtain ⟨m', w2⟩ := mw
          rw [hrest] at h
          obtain ⟨hm, hw⟩ : Children.cons n r m' = m ∧ (w1 || w2) = w := by simpa using h
          subst hm
          by_cases he : nm = n
          · subst he
            refine ⟨fun h0 => absurd h0 (by simp [Children.lookup]), fun ca hca => ?_⟩
            rw [Children.lookup, if_pos rfl] at hca
            cases hca
            refine ⟨fun h0 => absurd (hb ▸ h0) (by simp), fun cb hcb => ?_⟩
            rw [hb] at hcb
            cases hcb
            exact ⟨r, w1, hr, by rw [Children.lookup, if_pos rfl]⟩
          · have ihm := Children.merge_lookup sub rest b m' w2 hrest nm
            refine ⟨fun h0 => ?_, fun ca hca => ?_⟩
            · rw [Children.lookup, if_neg he] at h0 ⊢
              exact ihm.1 h0
            · rw [Children.lookup, if_neg he] at hca ⊢
              obtain ⟨hc1, hc2⟩ := ihm.2 ca hca
              exact ⟨fun h0 => hc1 h0, fun cb hcb => hc2 cb hcb⟩

theorem Children.toList_scale (f : Rat) (c : Children) :
    (c.scale f).toList = c.toList.map (fun e => (e.1, e.2.scale f)) := by
  cases c with
  | last n l => simp [Children.scale, Children.toList]
  | cons n l rest =>
    simp [Children.scale, Children.toList, Children.toList_scale f rest]

/-- **C1**: on the quarterly price fixture [37.77, 25.30, 21.30, 30.80]
Eur/MWh over one year with associated quarterly energies [300, 180, 200, 320]
MWh, downsampling to yearly with the volume information (energy-weighted
average) gives 30.0 within tolerance, downsampling the bare price series
(duration-weighted average) gives ≈28.78, and the two paths disagree. -/
theorem C1_resample_weighting_divergence :
    |downsamplePriceWithVolume fixtureEnergies fixturePrices - 30| ≤ 1/100
    ∧ |downsamplePriceNoVolume fixtureDurations fixturePrices - 2878/100| ≤ 1/100
    ∧ downsamplePriceWithVolume fixtureEnergies fixturePrices
      ≠ downsamplePriceNoVolume fixtureDurations fixturePrices := by
  norm_num [downsamplePriceWithVolume, downsamplePriceNoVolume, wavg,
    fixturePrices, fixtureEnergies, fixtureDurations, abs_le]

/-- **C2**: adding or subtracting a flat and a nested portfolio line of the
same kind over one index never fails: the nested operand is flattened, the
result is the flat combination with `nested.flatten()`, and the lossy path
is reported through the warning flag (`true`) while the explicit
flatten-first path returns the same line without the warning. -/
theorem C2_flat_nested_addsub_flattens (sub : Bool) (d : FlatData) (c : Children)
    (k : Kind) (s : List Int)
    (hk1 : (PfLine.flat d).kind? = some k) (hk2 : (PfLine.nested c).kind? = some k)
    (hs1 : (PfLine.flat d).stamps? = some s) (hs2 : (PfLine.nested c).stamps? = some s) :
    (PfLine.flat d).addSub sub (.nested c)
        = .ok (.flat (d.combine (opOf sub) c.aggData), true)
    ∧ (PfLine.nested c).addSub sub (.flat d)
        = .ok (.flat (c.aggData.combine (opOf sub) d), true)
    ∧ (PfLine.flat d).addSub sub ((PfLine.nested c).flatten)
        = .ok (.flat (d.combine (opOf sub) c.aggData), false)
    ∧ ((PfLine.nested c).flatten).addSub sub (.flat d)
        = .ok (.flat (c.aggData.combine (opOf sub) d), false) := by
  have hkf : ((PfLine.nested c).flatten).kind? = some k := by
    rw [PfLine.flatten, PfLine.kind?]
    exact congrArg some (PfLine.kindOf_aggData _ k hk2)
  have hsf : ((PfLine.nested c).flatten).stamps? = some s := by
    rw [PfLine.flatten, PfLine.stamps?]
    exact PfLine.stamps?_aggData _ s hs2
  refine ⟨?_, ?_, ?_, ?_⟩
  · rw [PfLine.addSub.eq_def]
    rw [if_neg (by simp [hk1, hk2]), if_neg (by simp [hs1, hs2])]
  · rw [PfLine.addSub.eq_def]
    rw [if_neg (by simp [hk1, hk2]), if_neg (by simp [hs1, hs2])]
  · rw [PfLine.addSub.eq_def]
    rw [if_neg (by simp [hk1, hkf]), if_neg (by simp [hs1, hsf])]
    rw [PfLine.flatten, PfLine.aggData]
  · rw [PfLine.addSub.eq_def]
    rw [if_neg (by simp [hkf, hk1]), if_neg (by simp [hsf, hs1])]
    rw [PfLine.flatten, PfLine.aggData]

/-- Witness for C2 at a concrete flat and nested VOLUME line. -/
theorem C2_witness :
    (PfLine.flat (.volume [(0, 4)])).addSub false
        (.nested (.last "A" (.flat (.volume [(0, 1)]))))
      = .ok (.flat (FlatData.combine (opOf false) (.volume [(0, 4)])
          (Children.last "A" (.flat (.volume [(0, 1)]))).aggData), true) := by
  exact (C2_flat_nested_addsub_flattens false (.volume [(0, 4)])
    (.last "A" (.flat (.volume [(0, 1)]))) .VOLUME [0]
    rfl rfl rfl rfl).1

theorem FlatData.eq_volume_of_kindOf (d : FlatData) (h : d.kindOf = .VOLUME) :
    ∃ q, d = .volume q := by
  cases d <;> simp_all [FlatData.kindOf]

theorem FlatData.eq_complete_of_kindOf (d : FlatData) (h : d.kindOf = .COMPLETE) :
    ∃ q p r, d = .complete q p r := by
  cases d <;> simp_all [FlatData.kindOf]

/-- **C3**: for every constructed portfolio state, `pnl_cost` is a nested
COMPLETE line with exactly the two children `sourced` and `unsourced`, in
that fixed order, and its aggregate (flattened) volume series equals the
negated offtake volume series — at every timestamp, since a series carries
its timestamps. -/
theorem C3_pnlcost_structure_closure (off pri src : PfLine) (st : PfState)
    (h : PfState.make off pri src = .ok st) :
    st.pnlCost = .nested (.cons "sourced" st.sourced (.last "unsourced" st.unsourced))
    ∧ st.pnlCost.kind? = some .COMPLETE
    ∧ (Children.cons "sourced" st.sourced (.last "unsourced" st.unsourced)).names
        = ["sourced", "unsourced"]
    ∧ st.pnlCost.flatten = .flat st.pnlCost.aggData
    ∧ st.pnlCost.aggData.qOf = sNeg st.offtakevolume.aggData.qOf := by
  rw [PfState.make] at h
  split at h
  case isFalse => exact absurd h (by simp)
  case isTrue hk =>
    obtain ⟨hkoff, hkpri, hksrc⟩ := hk
    cases hso : off.stamps? <;> rw [hso] at h
    · exact absurd h (by simp)
    case some s1 =>
      cases hsp : pri.stamps? <;> rw [hsp] at h
      · exact absurd h (by simp)
      case some s2 =>
        cases hss : src.stamps? <;> rw [hss] at h
        · exact absurd h (by simp)
        case some s3 =>
          simp only at h
          split at h
          case isFalse => exact absurd h (by simp)
          case isTrue hseq =>
            obtain ⟨h12, h13⟩ := hseq
            subst h12 h13
            obtain hst : PfState.mk off pri src = st := by simpa using h
            subst hst
            have hRoffk := PfLine.kindOf_aggData off .VOLUME hkoff
            have hRsrck := PfLine.kindOf_aggData src .COMPLETE hksrc
            have hRoffs := PfLine.stamps?_aggData off s1 hso
            have hRsrcs := PfLine.stamps?_aggData src s1 hss
            obtain ⟨qOff, hoffA⟩ := FlatData.eq_volume_of_kindOf _ hRoffk
            obtain ⟨qs, ps, rs, hsrcA⟩ := FlatData.eq_complete_of_kindOf _ hRsrck
            rw [hoffA] at hRoffs
            rw [hsrcA] at hRsrcs
            simp only [FlatData.stamps?, Option.some.injEq] at hRoffs
            have hqs : sStamps qs = s1 := by
              rw [FlatData.stamps?] at hRsrcs
              split at hRsrcs
              · simpa using hRsrcs
              · exact absurd hRsrcs (by simp)
            refine ⟨rfl, ?_, rfl, rfl, ?_⟩
            · simp [PfState.pnlCost, PfLine.kind?, Children.kind?, PfState.unsourced,
                FlatData.kindOf, hksrc]
            · simp only [PfState.pnlCost, PfState.unsourced, PfLine.aggData,
                Children.aggData, hsrcA, hoffA, FlatData.qOf, FlatData.combine]
              have := sAdd_sNeg_cancel qOff qs (by rw [hRoffs, hqs])
              simpa [sAdd] using this

/-- Witness for C3 at a concrete one-timestamp portfolio state. -/
theorem C3_witness :
    ∃ st, PfState.make (.flat (.volume [(0, -100)])) (.flat (.price [(0, 20)]))
        (.flat (.complete [(0, 30)] [(0, 10)] [(0, 300)])) = .ok st
    ∧ st.pnlCost.kind? = some .COMPLETE
    ∧ st.pnlCost.aggData.qOf = sNeg st.offtakevolume.aggData.qOf := by
  have h : PfState.make (.flat (.volume [(0, -100)])) (.flat (.price [(0, 20)]))
      (.flat (.complete [(0, 30)] [(0, 10)] [(0, 300)]))
      = .ok ⟨.flat (.volume [(0, -100)]), .flat (.price [(0, 20)]),
          .flat (.complete [(0, 30)] [(0, 10)] [(0, 300)])⟩ := by rfl
  exact ⟨_, h, (C3_pnlcost_structure_closure _ _ _ _ h).2.1,
    (C3_pnlcost_structure_closure _ _ _ _ h).2.2.2.2⟩

/-- **C4**: the sum of two nested same-kind lines over one index merges the
children by name union — a name in only one operand passes through
unchanged, a name in both maps to the recursive combination of the two
children by the same rule. -/
theorem C4_nested_sum_children_name_union (a b : Children) (k : Kind) (s : List Int)
    (hka : (PfLine.nested a).kind? = some k) (hkb : (PfLine.nested b).kind? = some k)
    (hsa : (PfLine.nested a).stamps? = some s) (hsb : (PfLine.nested b).stamps? = some s) :
    ∃ M w, (PfLine.nested a).addSub false (.nested b) = .ok (.nested M, w)
    ∧ ∀ nm : String,
        (a.lookup nm = none → M.lookup nm = b.lookup nm)
        ∧ (b.lookup nm = none → M.lookup nm = a.lookup nm)
        ∧ (∀ ca cb, a.lookup nm = some ca → b.lookup nm = some cb →
            ∃ r w', ca.addSub false cb = .ok (r, w') ∧ M.lookup nm = some r) := by
  rw [PfLine.kind?] at hka hkb
  rw [PfLine.stamps?] at hsa hsb
  obtain ⟨m, w, hm⟩ := Children.merge_total false a b k s hka hkb hsa hsb
  refine ⟨m.appendList (leftovers false a.names b), w, ?_, ?_⟩
  · rw [PfLine.addSub.eq_def]
    rw [if_neg (by simp [PfLine.kind?, hka, hkb]),
      if_neg (by simp [PfLine.stamps?, hsa, hsb])]
    simp [hm]
  · intro nm
    have hml := Children.merge_lookup false a b m w hm nm
    have happ := Children.lookup_appendList nm m (leftovers false a.names b)
    have hlf : leftovers false a.names b
        = b.toList.filter (fun e => !(a.names.contains e.1)) := by
      simp [leftovers]
    refine ⟨?_, ?_, ?_⟩
    · intro ha0
      have hm0 : m.lookup nm = none := hml.1 ha0
      have hnm : nm ∉ a.names := (Children.lookup_none_iff a nm).mp ha0
      rw [happ, hm0, hlf]
      simp only [Option.elim]
      rw [listLookup_filter_not_contains nm a.names b.toList hnm]
      exact listLookup_toList nm b
    · intro hb0
      cases ha : a.lookup nm with
      | none =>
        have hm0 : m.lookup nm = none := hml.1 ha
        have hnm : nm ∉ a.names := (Children.lookup_none_iff a nm).mp ha
        rw [happ, hm0, hlf]
        simp only [Option.elim]
        rw [listLookup_filter_not_contains nm a.names b.toList hnm,
          listLookup_toList nm b, hb0]
      | some ca =>
        have hm0 : m.lookup nm = some ca := (hml.2 ca ha).1 hb0
        rw [happ, hm0]
        rfl
    · intro ca cb ha hb
      obtain ⟨r, w', hr, hmr⟩ := (hml.2 ca ha).2 cb hb
      exact ⟨r, w', hr, by rw [happ, hmr]; rfl⟩

/-- Witness for C4 at two concrete nested VOLUME lines with child-name
overlap "B". -/
theorem C4_witness :
    ∃ M w, (PfLine.nested (.cons "A" (.flat (.volume [(0, 4)]))
          (.last "B" (.flat (.volume [(0, 1)]))))).addSub false
        (.nested (.cons "B" (.flat (.volume [(0, 5)]))
          (.last "C" (.flat (.volume [(0, 2)]))))) = .ok (.nested M, w)
    ∧ ∀ nm : String,
        ((Children.cons "A" (.flat (.volume [(0, 4)]))
            (.last "B" (.flat (.volume [(0, 1)])))).lookup nm = none →
          M.lookup nm = (Children.cons "B" (.flat (.volume [(0, 5)]))
            (.last "C" (.flat (.volume [(0, 2)])))).lookup nm)
        ∧ ((Children.cons "B" (.flat (.volume [(0, 5)]))
            (.last "C" (.flat (.volume [(0, 2)])))).lookup nm = none →
          M.lookup nm = (Children.cons "A" (.flat (.volume [(0, 4)]))
            (.last "B" (.flat (.volume [(0, 1)])))).lookup nm)
        ∧ (∀ ca cb, (Children.cons "A" (.flat (.volume [(0, 4)]))
              (.last "B" (.flat (.volume [(0, 1)])))).lookup nm = some ca →
            (Children.cons "B" (.flat (.volume [(0, 5)]))
              (.last "C" (.flat (.volume [(0, 2)])))).lookup nm = some cb →
            ∃ r w', ca.addSub false cb = .ok (r, w') ∧ M.lookup nm = some r) := by
  exact C4_nested_sum_children_name_union _ _ .VOLUME [0] rfl rfl rfl rfl

/-- **C5**: a bare unit-less number is accepted as a dimensionless scaling
factor for every line (multiplication/division), and for
addition/subtraction with a PRICE or REVENUE line, where it is interpreted
in the canonical unit of that kind; combined additively with a VOLUME or
COMPLETE line it is rejected as ambiguous with a typed error. -/
theorem C5_bare_number_dispatch (l : PfLine) (x : Rat) (sub : Bool) (s : List Int) :
    l.mulNum x = .ok (l.scale x, false)
    ∧ l.divByFactor x = l.scale x⁻¹
    ∧ ((l.kind? = some .PRICE ∨ l.kind? = some .REVENUE) → l.stamps? = some s →
        ∃ r w, l.addSubNum sub x = .ok (r, w))
    ∧ ((l.kind? = some .VOLUME ∨ l.kind? = some .COMPLETE) →
        l.addSubNum sub x = .error .AmbiguousDimensionError) := by
  refine ⟨rfl, rfl, ?_, ?_⟩
  · intro hk hs
    cases hk with
    | inl hk =>
      rw [PfLine.addSubNum, hk, hs]
      exact PfLine.addSub_total sub l _ .PRICE s hk rfl hs
        (by rw [PfLine.stamps?, FlatData.stamps?, sStamps_broadcast])
    | inr hk =>
      rw [PfLine.addSubNum, hk, hs]
      exact PfLine.addSub_total sub l _ .REVENUE s hk rfl hs
        (by rw [PfLine.stamps?, FlatData.stamps?, sStamps_broadcast])
  · intro hk
    cases hs : l.stamps? <;> cases hk with
    | _ hk => rw [PfLine.addSubNum, hk, hs]

/-- Witness for C5 at a concrete PRICE line and a concrete VOLUME line. -/
theorem C5_witness :
    (∃ r w, (PfLine.flat (.price [(0, 50)])).addSubNum false 5 = .ok (r, w))
    ∧ (PfLine.flat (.volume [(0, 4)])).addSubNum false 5
        = .error .AmbiguousDimensionError := by
  constructor
  · exact (C5_bare_number_dispatch (.flat (.price [(0, 50)])) 5 false [0]).2.2.1
      (Or.inl rfl) rfl
  · exact (C5_bare_number_dispatch (.flat (.volume [(0, 4)])) 5 false [0]).2.2.2
      (Or.inl rfl)

/-- **C6 counterexample**: constructing a portfolio line from
`{"p": series}` where the series carries no unit succeeds — the key supplies
the dimension and the default unit Eur/MWh is assumed — so the claimed
`AmbiguousDimensionError` is not raised on this input. -/
theorem C6_counterexample :
    PfLine.construct (.dimdict [("p", ⟨none, none, [(0, 50), (1, 56)]⟩)])
      = .ok (.flat (.price [(0, 50), (1, 56)])) := by
  rfl

/-- **C6 amended**: a `{"p": series}` input without unit constructs a PRICE
line (the key determines the dimension, the default unit is assumed), while
a bare single series without key, unit or operation context is the input
rejected with `AmbiguousDimensionError`. -/
theorem C6_amended_key_supplies_dimension (nm : Option String) (dat : Series) :
    PfLine.construct (.dimdict [("p", ⟨nm, none, dat⟩)]) = .ok (.flat (.price dat))
    ∧ PfLine.construct (.single ⟨nm, none, dat⟩) = .error .AmbiguousDimensionError := by
  exact ⟨rfl, rfl⟩

/-- **C7**: for a flat VOLUME line and a flat PRICE line over one index, the
union is the COMPLETE line whose volume part is the volume operand, whose
price part is the price operand, and whose revenue part is their
kind-changing product (the third quantity is derived, not supplied). -/
theorem C7_union_inverse_of_extraction (q p : Series) (h : sStamps q = sStamps p) :
    PfLine.union (.flat (.volume q)) (.flat (.price p))
        = .ok (.flat (.complete q p (sMul q p)))
    ∧ (PfLine.flat (.complete q p (sMul q p))).volumePart = .ok (.flat (.volume q))
    ∧ (PfLine.flat (.complete q p (sMul q p))).pricePart = .ok (.flat (.price p))
    ∧ (PfLine.flat (.complete q p (sMul q p))).revenuePart
        = .ok (.flat (.revenue (sMul q p)))
    ∧ PfLine.mulLine (.flat (.volume q)) (.flat (.price p))
        = .ok (.flat (.revenue (sMul q p))) := by
  refine ⟨?_, rfl, rfl, rfl, ?_⟩
  · rw [PfLine.union, FlatData.union, if_pos h]
  · rw [PfLine.mulLine, FlatData.mulFlat, if_pos h]

/-- Witness for C7 at a concrete one-timestamp volume and price. -/
theorem C7_witness :
    PfLine.union (.flat (.volume [(0, 100)])) (.flat (.price [(0, 30)]))
      = .ok (.flat (.complete [(0, 100)] [(0, 30)] (sMul [(0, 100)] [(0, 30)]))) := by
  exact (C7_union_inverse_of_extraction [(0, 100)] [(0, 30)] rfl).1

/-- **C8**: multiplication/division by a dimensionless factor (and negation,
which is multiplication by −1) is defined for every line, preserves kind,
index and nesting, applies the factor to every child, and on a flat
COMPLETE line scales volume and revenue while leaving the price series
unchanged. -/
theorem C8_scaling_preserves_kind_and_shape (f : Rat) (l : PfLine) :
    (l.scale f).kind? = l.kind?
    ∧ (l.scale f).stamps? = l.stamps?
    ∧ (l.scale f).isNested = l.isNested
    ∧ (∀ c, l = .nested c → l.scale f = .nested (c.scale f)
        ∧ (c.scale f).toList = c.toList.map (fun e => (e.1, e.2.scale f)))
    ∧ (∀ q p r, l = .flat (.complete q p r) →
        l.scale f = .flat (.complete (sScale f q) p (sScale f r)))
    ∧ l.neg = l.scale (-1)
    ∧ l.divByFactor f = l.scale f⁻¹ := by
  refine ⟨PfLine.kind?_scale f l, PfLine.stamps?_scaleLine f l, ?_, ?_, ?_, rfl, rfl⟩
  · cases l <;> rfl
  · intro c hc
    subst hc
    exact ⟨rfl, Children.toList_scale f c⟩
  · intro q p r hq
    subst hq
    rfl

/-- Witness for C8 at a concrete nested COMPLETE line. -/
theorem C8_witness :
    ((PfLine.nested (.last "A" (.flat (.complete [(0, 2)] [(0, 30)] [(0, 60)])))).scale 3).kind?
      = (PfLine.nested (.last "A" (.flat (.complete [(0, 2)] [(0, 30)] [(0, 60)])))).kind?
    ∧ (PfLine.flat (.complete [(0, 2)] [(0, 30)] [(0, 60)])).scale 3
      = .flat (.complete (sScale 3 [(0, 2)]) [(0, 30)] (sScale 3 [(0, 60)])) := by
  constructor
  · exact (C8_scaling_preserves_kind_and_shape 3
      (.nested (.last "A" (.flat (.complete [(0, 2)] [(0, 30)] [(0, 60)]))))).1
  · exact (C8_scaling_preserves_kind_and_shape 3
      (.flat (.complete [(0, 2)] [(0, 30)] [(0, 60)]))).2.2.2.2.1 _ _ _ rfl

/-- **C9**: for every portfolio line and timestamp `a`, the two slices
`pfl.slice[:a]` and `pfl.slice[a:]` are complements — every timestamp of the
line's index occurs in exactly one of them (the end point is excluded),
while `.loc[:a]` includes the end point. -/
theorem C9_slice_complements (l : PfLine) (a : Int) (s : List Int)
    (h : l.stamps? = some s) :
    (l.sliceUpto a).stamps? = some (s.filter (fun t => decide (t < a)))
    ∧ (l.sliceFrom a).stamps? = some (s.filter (fun t => decide (a ≤ t)))
    ∧ (∀ t, t ∈ s →
        (t ∈ s.filter (fun t => decide (t < a)) ↔ t ∉ s.filter (fun t => decide (a ≤ t))))
    ∧ (l.locUpto a).stamps? = some (s.filter (fun t => decide (t ≤ a)))
    ∧ (a ∈ s → a ∉ s.filter (fun t => decide (t < a))
        ∧ a ∈ s.filter (fun t => decide (t ≤ a))) := by
  refine ⟨PfLine.stamps?_filterLine _ l s h, PfLine.stamps?_filterLine _ l s h, ?_,
    PfLine.stamps?_filterLine _ l s h, ?_⟩
  · intro t ht
    simp [List.mem_filter, ht]
  · intro ha
    simp [List.mem_filter, ha]

/-- Witness for C9 at a concrete two-timestamp volume line. -/
theorem C9_witness :
    ((PfLine.flat (.volume [(0, 1), (5, 2)])).sliceUpto 5).stamps?
      = some ([0, 5].filter (fun t => decide (t < 5)))
    ∧ ((PfLine.flat (.volume [(0, 1), (5, 2)])).sliceFrom 5).stamps?
      = some ([0, 5].filter (fun t => decide ((5:Int) ≤ t))) := by
  constructor
  · exact (C9_slice_complements (.flat (.volume [(0, 1), (5, 2)])) 5 [0, 5] rfl).1
  · exact (C9_slice_complements (.flat (.volume [(0, 1), (5, 2)])) 5 [0, 5] rfl).2.1

theorem resolveEntry_stripName (k : String) (sr : RawSeries) :
    resolveEntry k { sr with name := none } = resolveEntry k sr := by
  cases hk : keyDim k <;> cases hu : sr.unit <;>
    simp [resolveEntry, hk, hu]

theorem resolveEntries_stripNames (entries : List (String × RawSeries)) :
    resolveEntries (entries.map (fun e => (e.1, { e.2 with name := none })))
      = resolveEntries entries := by
  induction entries with
  | nil => rfl
  | cons e rest ih =>
    rw [List.map_cons, resolveEntries, resolveEntries, resolveEntry_stripName, ih]

theorem construct_stripNames (i : PfInput) :
    PfLine.construct i.stripNames = PfLine.construct i := by
  cases i with
  | single s =>
    cases hu : s.unit <;>
      simp [PfInput.stripNames, PfLine.construct, hu]
  | dimdict entries =>
    rw [PfInput.stripNames, PfLine.construct, PfLine.construct,
      resolveEntries_stripNames]

/-- **C10**: the `name` attribute of an input pandas Series never influences
construction — two inputs that agree after erasing all series names
construct the same portfolio line. -/
theorem C10_series_name_ignored (i1 i2 : PfInput) (h : i1.stripNames = i2.stripNames) :
    PfLine.construct i1 = PfLine.construct i2 := by
  rw [← construct_stripNames i1, ← construct_stripNames i2, h]

/-- Witness for C10 at two concrete price series differing only in name. -/
theorem C10_witness :
    PfLine.construct (.single ⟨some "foo", some .price, [(0, 50)]⟩)
      = PfLine.construct (.single ⟨some "bar", some .price, [(0, 50)]⟩) := by
  exact C10_series_name_ignored _ _ rfl
